import Mathlib

/-!
Verification of the module-dependency scheduler, retry/validation loop and
architecture-cleaning policy of the Engineering-Team-AI-Agent repository.

The Lean definitions below are a shallow embedding of the Python sources:
  * `src/engineering_team/models.py` — `ModuleSpec`, `SystemArchitecture`,
    `ModuleCreationState` with `get_next_module`, `mark_module_in_progress`,
    `mark_module_completed`, `is_system_complete`;
  * `src/engineering_team/architecture_planner.py` —
    `_validate_and_clean_architecture`, `create_module_state`;
  * `src/engineering_team/module_creator.py` — the `create_modules` driving
    loop, `_create_single_module_with_retry`, `_extract_module_interface`
    and `_validate_module_interface`.

Python lists become Lean lists; `list.remove(x)` (first occurrence) becomes
`List.erase`; Python's `min(..., key=...)` (first element attaining the
minimal key) becomes a left fold that replaces the current best only on a
strictly smaller key; Python's `sub in s` substring test becomes a character
level infix test; the LLM generation backend is an opaque oracle parameter.
-/

/-- ModuleSpec from models.py: one unit of work. `priority` is a Python int,
so it is embedded as `Int`. -/
structure ModuleSpec where
  name : String
  class_name : String
  purpose : String
  dependencies : List String
  interfaces : List String
  priority : Int
deriving DecidableEq, Repr

/-- SystemArchitecture from models.py. -/
structure SystemArchitecture where
  system_name : String
  description : String
  modules : List ModuleSpec
  assembly_instructions : String
deriving DecidableEq, Repr

/-- ModuleCreationState from models.py: the scheduler's mutable state. -/
structure ModuleCreationState where
  architecture : SystemArchitecture
  completed_modules : List String
  in_progress_modules : List String
  pending_modules : List String
deriving DecidableEq, Repr

/-- Module names of an architecture, in declaration order
(`[module.name for module in architecture.modules]`). -/
def archNames (a : SystemArchitecture) : List String :=
  a.modules.map (fun m => m.name)

/-- Eligibility test of `get_next_module`'s list comprehension: the module's
name is in neither `completed_modules` nor `in_progress_modules` and every
declared dependency is in `completed_modules`. -/
def eligibleB (s : ModuleCreationState) (m : ModuleSpec) : Bool :=
  !(s.completed_modules.contains m.name) &&
  !(s.in_progress_modules.contains m.name) &&
  m.dependencies.all (fun d => s.completed_modules.contains d)

/-- The `available_modules` list comprehension of `get_next_module`. -/
def availableModules (s : ModuleCreationState) : List ModuleSpec :=
  s.architecture.modules.filter (fun m => eligibleB s m)

/-- Python's `min(xs, key=lambda m: m.priority)` scans left to right and
replaces the running best only on a strictly smaller key, so the first
module attaining the minimal priority is returned. -/
def minByPriority (m : ModuleSpec) (ms : List ModuleSpec) : ModuleSpec :=
  ms.foldl (fun best x => if x.priority < best.priority then x else best) m

/-- ModuleCreationState.get_next_module from models.py. -/
def ModuleCreationState.get_next_module (s : ModuleCreationState) :
    Option ModuleSpec :=
  match availableModules s with
  | [] => none
  | m :: ms => some (minByPriority m ms)

/-- ModuleCreationState.mark_module_in_progress from models.py: remove the
name from `pending_modules` when present (Python `list.remove`, first
occurrence), then append it to `in_progress_modules` when absent. -/
def ModuleCreationState.mark_module_in_progress (s : ModuleCreationState)
    (module_name : String) : ModuleCreationState :=
  let pending :=
    if module_name ∈ s.pending_modules then
      s.pending_modules.erase module_name
    else s.pending_modules
  let in_progress :=
    if module_name ∈ s.in_progress_modules then s.in_progress_modules
    else s.in_progress_modules ++ [module_name]
  { s with pending_modules := pending, in_progress_modules := in_progress }

/-- ModuleCreationState.mark_module_completed from models.py: remove the
name from `in_progress_modules` when present, then append it to
`completed_modules` when absent. -/
def ModuleCreationState.mark_module_completed (s : ModuleCreationState)
    (module_name : String) : ModuleCreationState :=
  let in_progress :=
    if module_name ∈ s.in_progress_modules then
      s.in_progress_modules.erase module_name
    else s.in_progress_modules
  let completed :=
    if module_name ∈ s.completed_modules then s.completed_modules
    else s.completed_modules ++ [module_name]
  { s with in_progress_modules := in_progress, completed_modules := completed }

/-- ModuleCreationState.is_system_complete from models.py:
`len(completed_modules) == len(architecture.modules)`. -/
def ModuleCreationState.is_system_complete (s : ModuleCreationState) : Bool :=
  s.completed_modules.length == s.architecture.modules.length

/-- ArchitecturePlanner.create_module_state from architecture_planner.py:
every module name pending, the other two lists empty. -/
def create_module_state (a : SystemArchitecture) : ModuleCreationState :=
  { architecture := a
    completed_modules := []
    in_progress_modules := []
    pending_modules := a.modules.map (fun m => m.name) }

/-- Python `s.lower()` on the character sequence (ASCII-faithful, as
`String.toLower` is: `Char.toLower` applied to every character). -/
def pyLower (s : String) : String :=
  String.mk (s.toList.map Char.toLower)

/-- Python's substring test `pat in s`: `pat` occurs as a contiguous
character subsequence of `s`. -/
def strContains (s pat : String) : Bool :=
  decide (pat.toList <:+: s.toList)

/-- Reserved presentation-layer terms shared by architecture_planner.py and
module_creator.py: `["ui", "interface", "frontend", "web", "gui"]`. -/
def uiTermList : List String :=
  ["ui", "interface", "frontend", "web", "gui"]

/-- Test used by both files:
`any(term in m.name.lower() for term in [...])`. -/
def hasUITerm (name : String) : Bool :=
  uiTermList.any (fun t => strContains (pyLower name) t)

/-- ArchitecturePlanner._validate_and_clean_architecture from
architecture_planner.py: when any module name matches a reserved term, the
module list is replaced by its non-matching part; otherwise the
architecture is returned unchanged. -/
def _validate_and_clean_architecture (a : SystemArchitecture) :
    SystemArchitecture :=
  let ui_modules := a.modules.filter (fun m => hasUITerm m.name)
  if ui_modules.isEmpty then a
  else { a with modules := a.modules.filter (fun m => !(hasUITerm m.name)) }

/-- Exit condition of the `while` loop in ModuleCreator.create_modules:
`completedLoop` when `is_system_complete` became true, `stuck` when
`get_next_module` returned none (`break`), `fuelOut` when the modelling
fuel ran out before either. -/
inductive LoopExit where
  | completedLoop
  | stuck
  | fuelOut
deriving DecidableEq, Repr

/-- The `while not module_state.is_system_complete()` loop of
ModuleCreator.create_modules (module_creator.py lines 54-82), with the
generation call abstracted away: the third component records, in order,
the names passed to `_create_single_module_with_retry`. The skip branch for
a reserved-term name marks the module completed without a generation call;
the normal branch marks it in progress, generates, and marks it
completed. -/
def create_modules_loop :
    Nat → ModuleCreationState → ModuleCreationState × LoopExit × List String
  | 0, s => (s, LoopExit.fuelOut, [])
  | fuel + 1, s =>
    if s.is_system_complete then (s, LoopExit.completedLoop, [])
    else
      match s.get_next_module with
      | none => (s, LoopExit.stuck, [])
      | some m =>
        if hasUITerm m.name then
          create_modules_loop fuel (s.mark_module_completed m.name)
        else
          let r := create_modules_loop fuel
            ((s.mark_module_in_progress m.name).mark_module_completed m.name)
          (r.1, r.2.1, m.name :: r.2.2)

/-- ModuleCreator.create_modules: the hard validation at the top raises
`ValueError` when any module name matches a reserved term; otherwise the
driving loop runs. -/
def create_modules (a : SystemArchitecture) (module_state : ModuleCreationState)
    (fuel : Nat) :
    Except String (ModuleCreationState × LoopExit × List String) :=
  let ui_modules := a.modules.filter (fun m => hasUITerm m.name)
  if ui_modules.isEmpty then Except.ok (create_modules_loop fuel module_state)
  else Except.error "UI modules not allowed"

/-- Python AST fragment relevant to `_extract_module_interface`: class
definitions with a body, function definitions with a formal-parameter name
list and a body, and every other node kind collapsed to `other` with its
child nodes. -/
inductive PyNode where
  | classDef (name : String) (body : List PyNode)
  | funcDef (name : String) (args : List String) (body : List PyNode)
  | other (children : List PyNode)
deriving Repr

/-- Child nodes of a Python AST node, as `ast.iter_child_nodes` yields
them. -/
def PyNode.children : PyNode → List PyNode
  | PyNode.classDef _ body => body
  | PyNode.funcDef _ _ body => body
  | PyNode.other cs => cs

mutual

/-- Structural size of an AST node, the termination measure of the
breadth-first walk. -/
def pySize : PyNode → Nat
  | PyNode.classDef _ body => 1 + pySizeList body
  | PyNode.funcDef _ _ body => 1 + pySizeList body
  | PyNode.other cs => 1 + pySizeList cs

/-- Total structural size of a list of AST nodes. -/
def pySizeList : List PyNode → Nat
  | [] => 0
  | n :: rest => pySize n + pySizeList rest

end

theorem pySizeList_append (l₁ l₂ : List PyNode) :
    pySizeList (l₁ ++ l₂) = pySizeList l₁ + pySizeList l₂ := by
  induction l₁ with
  | nil => simp [pySizeList]
  | cons n rest ih => simp [pySizeList, ih]; omega

theorem pySizeList_children_lt (n : PyNode) :
    pySizeList n.children < pySize n := by
  cases n <;> simp [PyNode.children, pySize]

/-- Breadth-first traversal step of `ast.walk`: pop the front node, yield
it, push its children at the back. The `fuel` argument only makes the
recursion structural; `walkAux_fuel_irrelevant` below shows any fuel of at
least the queue's total size gives the same traversal, so the zero-fuel
branch is never taken by `walk`. -/
def walkAux (fuel : Nat) (q : List PyNode) : List PyNode :=
  match fuel, q with
  | _, [] => []
  | 0, _ :: _ => []
  | fuel + 1, n :: rest => n :: walkAux fuel (rest ++ n.children)

theorem walkAux_fuel_irrelevant (fuel₁ : Nat) :
    ∀ (fuel₂ : Nat) (q : List PyNode), pySizeList q ≤ fuel₁ →
      pySizeList q ≤ fuel₂ → walkAux fuel₁ q = walkAux fuel₂ q := by
  induction fuel₁ with
  | zero =>
    intro fuel₂ q h₁ h₂
    match q with
    | [] => cases fuel₂ <;> rfl
    | n :: rest =>
      exfalso
      have hc := pySizeList_children_lt n
      simp [pySizeList] at h₁
      omega
  | succ f₁ ih =>
    intro fuel₂ q h₁ h₂
    match q with
    | [] => cases fuel₂ <;> rfl
    | n :: rest =>
      have hn : 0 < pySize n := by
        have := pySizeList_children_lt n
        omega
      simp [pySizeList] at h₁ h₂
      match fuel₂ with
      | 0 => omega
      | f₂ + 1 =>
        have hq : pySizeList (rest ++ n.children) ≤ f₁ ∧
            pySizeList (rest ++ n.children) ≤ f₂ := by
          have hc := pySizeList_children_lt n
          rw [pySizeList_append]
          omega
        simp [walkAux]
        exact ih f₂ (rest ++ n.children) hq.1 hq.2

/-- Full `ast.walk(tree)` traversal: breadth first, the tree itself
first. -/
def walk (tree : PyNode) : List PyNode :=
  walkAux (pySize tree) [tree]

/-- Extracted interface of one module, the dict
`{"classes": {...}, "functions": [...]}` built by
`_extract_module_interface`: an insertion-ordered mapping from class name
to the method-signature list, and the free-function signature list. -/
structure ModuleInterface where
  classes : List (String × List String)
  functions : List String
deriving DecidableEq, Repr

/-- Python dict assignment `d[k] = v`: overwrite in place when the key
exists, append otherwise. -/
def dictInsert (k : String) (v : List String) :
    List (String × List String) → List (String × List String)
  | [] => [(k, v)]
  | (k', v') :: rest =>
    if k' = k then (k, v) :: rest else (k', v') :: dictInsert k v rest

/-- Python `name.startswith("_")`. -/
def startsWithUnderscore (s : String) : Bool :=
  match s.toList with
  | [] => false
  | c :: _ => c == '_'

/-- Signature string `f"{name}({', '.join(args)})"`. -/
def mkSig (name : String) (args : List String) : String :=
  name ++ "(" ++ String.intercalate ", " args ++ ")"

/-- Method signatures collected from a class body: every direct
`FunctionDef` member whose name does not start with an underscore, with
`args.args[1:]` (the implicit `self` dropped). -/
def classMethodSigs (body : List PyNode) : List String :=
  body.filterMap (fun item =>
    match item with
    | PyNode.funcDef fname args _ =>
      if startsWithUnderscore fname then none
      else some (mkSig fname (args.drop 1))
    | _ => none)

/-- One step of the `for node in ast.walk(tree)` loop of
`_extract_module_interface`: a `ClassDef` stores its public direct method
signatures under its name; any other `FunctionDef` whose name does not
start with an underscore is appended to `functions` with its full argument
list. -/
def extractStep (acc : ModuleInterface) (node : PyNode) : ModuleInterface :=
  match node with
  | PyNode.classDef cname body =>
    { acc with classes := dictInsert cname (classMethodSigs body) acc.classes }
  | PyNode.funcDef fname args _ =>
    if startsWithUnderscore fname then acc
    else { acc with functions := acc.functions ++ [mkSig fname args] }
  | PyNode.other _ => acc

/-- ModuleCreator._extract_module_interface from module_creator.py, with
the call to `ast.parse` modelled as the `Option PyNode` input: `none` is a
parse failure, absorbed into the empty interface (the `except` branch);
`some tree` walks the whole tree. -/
def _extract_module_interface (parsed : Option PyNode) : ModuleInterface :=
  match parsed with
  | none => { classes := [], functions := [] }
  | some tree => (walk tree).foldl extractStep { classes := [], functions := [] }

/-- Name part of an extracted signature, Python `method.split("(")[0]`: the
characters before the first `(`. -/
def sigName (sig : String) : String :=
  String.mk (sig.toList.takeWhile (fun c => c != '('))

/-- ModuleCreator._validate_module_interface from module_creator.py. -/
def _validate_module_interface (module_spec : ModuleSpec)
    (interface : ModuleInterface) : List String :=
  match interface.classes.lookup module_spec.class_name with
  | none => ["Main class '" ++ module_spec.class_name ++ "' not found"]
  | some class_methods =>
    let implemented_methods := class_methods.map sigName
    module_spec.interfaces.foldl (fun issues required_method =>
      if implemented_methods.contains required_method then issues
      else issues ++ ["Required method '" ++ required_method ++
        "' not implemented in " ++ module_spec.class_name]) []

/-- Result dict of one generation attempt, as `_create_single_module` and
`_retry_module_with_feedback` build it: the generated source is kept as
its parse result, and both constructors set `validation_issues` to the
empty list (the comment in the source says validation is handled by the
retry wrapper). -/
structure ModuleResult where
  parsedCode : Option PyNode
  interface : ModuleInterface
  validation_issues : List String

/-- Artifact of attempt number `i` (0-based), with generation modelled by
the oracle `gens` giving each attempt's parsed source. Both the initial
creation and the feedback retry extract the interface from the generated
code and set `validation_issues := []`. -/
def attemptResult (gens : Nat → Option PyNode) (i : Nat) : ModuleResult :=
  { parsedCode := gens i
    interface := _extract_module_interface (gens i)
    validation_issues := [] }

/-- Body of the `for attempt in range(max_retries + 1)` loop of
ModuleCreator._create_single_module_with_retry, from attempt number
`attempt` on with `left = max_retries - attempt` retries remaining (so
Python's `attempt < max_retries` test is `left > 0`): generate, validate,
return on success, retry while attempts remain, and after the last failing
attempt return that attempt's result anyway. The second component counts
the attempts made. -/
def retryAux (module_spec : ModuleSpec) (gens : Nat → Option PyNode) :
    Nat → Nat → ModuleResult × Nat
  | attempt, left =>
    let module_result := attemptResult gens attempt
    let validation_issues :=
      _validate_module_interface module_spec module_result.interface
    if validation_issues.isEmpty then (module_result, attempt + 1)
    else
      match left with
      | 0 => (module_result, attempt + 1)
      | left' + 1 => retryAux module_spec gens (attempt + 1) left'

/-- ModuleCreator._create_single_module_with_retry: the loop starts at
attempt 0 with `max_retries` retries remaining; the source's default bound
is `max_retries = 2`, three total attempts. -/
def _create_single_module_with_retry (module_spec : ModuleSpec)
    (gens : Nat → Option PyNode) (max_retries : Nat) : ModuleResult × Nat :=
  retryAux module_spec gens 0 max_retries

/-- Propositional form of `eligibleB`: the module is schedulable in state
`s`. -/
def eligible (s : ModuleCreationState) (m : ModuleSpec) : Prop :=
  m.name ∉ s.completed_modules ∧ m.name ∉ s.in_progress_modules ∧
  ∀ d ∈ m.dependencies, d ∈ s.completed_modules

/-- Partition invariant of ModuleCreationState stated by the spec: the
three lists are duplicate free, pairwise disjoint, and their union is the
architecture's module-name set. -/
def StateInv (s : ModuleCreationState) : Prop :=
  s.pending_modules.Nodup ∧ s.in_progress_modules.Nodup ∧
  s.completed_modules.Nodup ∧
  s.pending_modules.Disjoint s.in_progress_modules ∧
  s.pending_modules.Disjoint s.completed_modules ∧
  s.in_progress_modules.Disjoint s.completed_modules ∧
  ∀ n : String, (n ∈ s.pending_modules ∨ n ∈ s.in_progress_modules ∨
    n ∈ s.completed_modules) ↔ n ∈ archNames s.architecture

/-- One call of the two state-transition methods. -/
inductive MarkOp where
  | inProgressOp (n : String)
  | completedOp (n : String)
deriving DecidableEq, Repr

/-- Module name an operation is called with. -/
def MarkOp.opName : MarkOp → String
  | MarkOp.inProgressOp n => n
  | MarkOp.completedOp n => n

/-- Execute one call on a state. -/
def applyMark (s : ModuleCreationState) : MarkOp → ModuleCreationState
  | MarkOp.inProgressOp n => s.mark_module_in_progress n
  | MarkOp.completedOp n => s.mark_module_completed n

/-- Execute a sequence of calls left to right. -/
def applyMarks (s : ModuleCreationState) (ops : List MarkOp) :
    ModuleCreationState :=
  ops.foldl applyMark s

/-- Every call of the sequence uses a module name of the architecture
(the hypothesis of claim C1 as stated). -/
def ArchSeq (a : SystemArchitecture) (ops : List MarkOp) : Prop :=
  ∀ op ∈ ops, op.opName ∈ archNames a

/-- Guarded call sequences: every call uses a module name of the
architecture, `mark_module_in_progress` is never applied to an already
completed name, and `mark_module_completed` is never applied to a still
pending name — the protocol the scheduler's driving loop follows. -/
def GuardedSeq : ModuleCreationState → List MarkOp → Prop
  | _, [] => True
  | s, op :: ops =>
    (op.opName ∈ archNames s.architecture ∧
      (match op with
       | MarkOp.inProgressOp n => n ∉ s.completed_modules
       | MarkOp.completedOp n => n ∉ s.pending_modules)) ∧
    GuardedSeq (applyMark s op) ops

/-- Direct dependency relation of an architecture: `depRel a d n` holds
when some module named `n` declares `d` among its dependencies. -/
def depRel (a : SystemArchitecture) (d n : String) : Prop :=
  ∃ m ∈ a.modules, m.name = n ∧ d ∈ m.dependencies

/-- A dependency cycle: a nonempty name list in which every entry's module
depends on the cyclically next entry. -/
def HasDepCycle (a : SystemArchitecture) : Prop :=
  ∃ c : List String, ∃ hpos : 0 < c.length,
    ∀ i : Fin c.length,
      depRel a (c.get ⟨(i.1 + 1) % c.length, Nat.mod_lt _ hpos⟩) (c.get i)

/-- Some module declares a dependency that names no module of the
architecture. -/
def HasMissingDep (a : SystemArchitecture) : Prop :=
  ∃ m ∈ a.modules, ∃ d ∈ m.dependencies, d ∉ archNames a

/-- A set of module names none of which the scheduler can ever complete:
every module carrying such a name declares a dependency that is itself
blocked or names no module. -/
def BlockedSet (a : SystemArchitecture) (B : Set String) : Prop :=
  (∀ n ∈ B, n ∈ archNames a) ∧
  ∀ n ∈ B, ∀ m ∈ a.modules, m.name = n →
    ∃ d ∈ m.dependencies, d ∈ B ∨ d ∉ archNames a

/-- Architecture with the single module `a.py` (no dependencies), the
concrete input of claim C1's counterexample. -/
def archSingle : SystemArchitecture :=
  { system_name := "Single"
    description := "one module"
    modules := [{ name := "a.py", class_name := "A", purpose := "a"
                  dependencies := [], interfaces := [], priority := 1 }]
    assembly_instructions := "" }

/-- Two-module architecture of the spec's end-to-end scenario: `api.py`
depends on `storage.py`. -/
def archStorageApi : SystemArchitecture :=
  { system_name := "StorageApi"
    description := "storage then api"
    modules :=
      [ { name := "storage.py", class_name := "Storage", purpose := "store"
          dependencies := [], interfaces := ["save", "load"], priority := 1 },
        { name := "api.py", class_name := "Api", purpose := "api"
          dependencies := ["storage.py"], interfaces := ["fetch"]
          priority := 2 } ]
    assembly_instructions := "" }

/-- Module a.py depending on b.py. -/
def moduleCycA : ModuleSpec :=
  { name := "a.py", class_name := "A", purpose := "a"
    dependencies := ["b.py"], interfaces := [], priority := 1 }

/-- Module b.py depending on a.py. -/
def moduleCycB : ModuleSpec :=
  { name := "b.py", class_name := "B", purpose := "b"
    dependencies := ["a.py"], interfaces := [], priority := 1 }

/-- Architecture whose two modules depend on each other, the spec's cycle
scenario. -/
def archCycle : SystemArchitecture :=
  { system_name := "Cycle"
    description := "a and b depend on each other"
    modules := [moduleCycA, moduleCycB]
    assembly_instructions := "" }

/-- First of two equal-priority modules. -/
def moduleFirst : ModuleSpec :=
  { name := "first.py", class_name := "First", purpose := "f"
    dependencies := [], interfaces := [], priority := 5 }

/-- Second of two equal-priority modules. -/
def moduleSecond : ModuleSpec :=
  { name := "second.py", class_name := "Second", purpose := "s"
    dependencies := [], interfaces := [], priority := 5 }

/-- Architecture with two eligible modules sharing the minimal priority,
the tie-break witness of claim C10. -/
def archTie : SystemArchitecture :=
  { system_name := "Tie"
    description := "two modules with equal priority"
    modules := [moduleFirst, moduleSecond]
    assembly_instructions := "" }

/-- ModuleSpec expecting class `Foo` with required method `bar`, used by
the retry-loop and validator witnesses. -/
def specFoo : ModuleSpec :=
  { name := "foo.py", class_name := "Foo", purpose := "foo"
    dependencies := [], interfaces := ["bar"], priority := 1 }

/-- Generation oracle whose every attempt fails to parse, so every
attempt's extracted interface is empty and fails validation. -/
def gensFail : Nat → Option PyNode := fun _ => none

/-- Parse tree of the source `class Foo:` containing the single public
method `def bar(self): ...`, with no top-level free function. -/
def treeFoo : PyNode :=
  PyNode.other [PyNode.classDef "Foo" [PyNode.funcDef "bar" ["self"] []]]


theorem eligibleB_iff (s : ModuleCreationState) (m : ModuleSpec) :
    eligibleB s m = true ↔ eligible s m := by
  simp [eligibleB, eligible, List.all_eq_true, List.contains, and_assoc]

theorem mem_availableModules (s : ModuleCreationState) (m : ModuleSpec) :
    m ∈ availableModules s ↔ m ∈ s.architecture.modules ∧ eligible s m := by
  simp [availableModules, List.mem_filter, eligibleB_iff]

theorem minByPriority_cons (m y : ModuleSpec) (ys : List ModuleSpec) :
    minByPriority m (y :: ys) =
      minByPriority (if y.priority < m.priority then y else m) ys := rfl

theorem minByPriority_mem :
    ∀ (ms : List ModuleSpec) (m : ModuleSpec), minByPriority m ms ∈ m :: ms := by
  intro ms
  induction ms with
  | nil => intro m; simp [minByPriority]
  | cons y ys ih =>
    intro m
    rw [minByPriority_cons]
    rcases List.mem_cons.mp (ih (if y.priority < m.priority then y else m)) with
      h | h
    · rw [h]
      by_cases hy : y.priority < m.priority <;> simp [hy]
    · simp [h]

theorem minByPriority_le :
    ∀ (ms : List ModuleSpec) (m x : ModuleSpec), x ∈ m :: ms →
      (minByPriority m ms).priority ≤ x.priority := by
  intro ms
  induction ms with
  | nil =>
    intro m x hx
    simp at hx
    simp [minByPriority, hx]
  | cons y ys ih =>
    intro m x hx
    rw [minByPriority_cons]
    have hseed : (if y.priority < m.priority then y else m).priority ≤ m.priority ∧
        (if y.priority < m.priority then y else m).priority ≤ y.priority := by
      by_cases hy : y.priority < m.priority <;> simp [hy] <;> omega
    have hself := ih (if y.priority < m.priority then y else m)
      (if y.priority < m.priority then y else m) (List.mem_cons_self _ _)
    rcases List.mem_cons.mp hx with h | h
    · subst h
      exact le_trans hself hseed.1
    · rcases List.mem_cons.mp h with h' | h'
      · subst h'
        exact le_trans hself hseed.2
      · exact ih _ x (List.mem_cons_of_mem _ h')

theorem minByPriority_first :
    ∀ (ms : List ModuleSpec) (m : ModuleSpec),
      ∃ l₁ l₂, m :: ms = l₁ ++ minByPriority m ms :: l₂ ∧
        ∀ x ∈ l₁, (minByPriority m ms).priority < x.priority := by
  intro ms
  induction ms with
  | nil =>
    intro m
    exact ⟨[], [], by simp [minByPriority], by simp⟩
  | cons y ys ih =>
    intro m
    rw [minByPriority_cons]
    by_cases hy : y.priority < m.priority
    · rw [if_pos hy]
      obtain ⟨l₁, l₂, hsplit, hlt⟩ := ih y
      refine ⟨m :: l₁, l₂, by rw [List.cons_append, ← hsplit], ?_⟩
      intro x hx
      rcases List.mem_cons.mp hx with h | h
      · subst h
        have := minByPriority_le ys y y (List.mem_cons_self _ _)
        omega
      · exact hlt x h
    · rw [if_neg hy]
      obtain ⟨l₁, l₂, hsplit, hlt⟩ := ih m
      match l₁, hsplit with
      | [], hsplit =>
        have hm : minByPriority m ys = m := by
          have := congrArg (fun l => l.head?) hsplit
          simpa using this.symm
        have htail : ys = l₂ := by
          have := congrArg (fun l => l.tail) hsplit
          simpa [hm] using this
        exact ⟨[], y :: ys, by simp [hm], by simp⟩
      | a :: t, hsplit =>
        have ha : m = a := by
          have := congrArg (fun l => l.head?) hsplit
          simpa using this
        subst ha
        have htail : ys = t ++ minByPriority m ys :: l₂ := by
          have := congrArg (fun l => l.tail) hsplit
          simpa using this
        have hma : (minByPriority m ys).priority < m.priority :=
          hlt m (List.mem_cons_self _ _)
        refine ⟨m :: y :: t, l₂, ?_, ?_⟩
        · rw [List.cons_append, List.cons_append, ← htail]
        · intro x hx
          rcases List.mem_cons.mp hx with h | h
          · subst h; exact hma
          · rcases List.mem_cons.mp h with h' | h'
            · subst h'
              omega
            · exact hlt x (List.mem_cons_of_mem _ h')

theorem filter_split {p : ModuleSpec → Bool} :
    ∀ {l l₁ l₂ : List ModuleSpec} {r : ModuleSpec},
      l.filter p = l₁ ++ r :: l₂ →
      ∃ L₁ L₂, l = L₁ ++ r :: L₂ ∧ L₁.filter p = l₁ := by
  intro l
  induction l with
  | nil =>
    intro l₁ l₂ r h
    simp at h
  | cons a t ih =>
    intro l₁ l₂ r h
    by_cases pa : p a
    · rw [List.filter_cons_of_pos pa] at h
      match l₁, h with
      | [], h =>
        have har : a = r := by
          have := congrArg (fun l => l.head?) h
          simpa using this
        subst har
        have htail : t.filter p = l₂ := by
          have := congrArg (fun l => l.tail) h
          simpa using this
        exact ⟨[], t, by simp, by simp⟩
      | b :: t₁, h =>
        have hab : a = b := by
          have := congrArg (fun l => l.head?) h
          simpa using this
        subst hab
        have htail : t.filter p = t₁ ++ r :: l₂ := by
          have := congrArg (fun l => l.tail) h
          simpa using this
        obtain ⟨L₁, L₂, hsplit, hfilter⟩ := ih htail
        exact ⟨a :: L₁, L₂, by rw [List.cons_append, ← hsplit],
          by rw [List.filter_cons_of_pos pa, hfilter]⟩
    · rw [List.filter_cons_of_neg (by simpa using pa)] at h
      obtain ⟨L₁, L₂, hsplit, hfilter⟩ := ih h
      exact ⟨a :: L₁, L₂, by rw [List.cons_append, ← hsplit],
        by rw [List.filter_cons_of_neg (by simpa using pa), hfilter]⟩

theorem get_next_module_none_iff (s : ModuleCreationState) :
    s.get_next_module = none ↔ availableModules s = [] := by
  unfold ModuleCreationState.get_next_module
  match h : availableModules s with
  | [] => simp
  | m :: ms => simp

theorem get_next_module_some (s : ModuleCreationState) (m : ModuleSpec)
    (h : s.get_next_module = some m) :
    m ∈ availableModules s ∧
      ∀ x ∈ availableModules s, m.priority ≤ x.priority := by
  unfold ModuleCreationState.get_next_module at h
  cases hav : availableModules s with
  | nil => rw [hav] at h; simp at h
  | cons c cs =>
    rw [hav] at h
    simp at h
    subst h
    exact ⟨minByPriority_mem cs c, fun x hx => minByPriority_le cs c x hx⟩

/-- C2: for every ModuleCreationState, `get_next_module` returns none
exactly when no module of the architecture is eligible (name in neither
`completed_modules` nor `in_progress_modules`, every declared dependency in
`completed_modules`), and any module it returns is an eligible module of
the architecture whose priority is numerically smallest among all eligible
modules. -/
theorem C2_get_next_module_spec (s : ModuleCreationState) :
    (s.get_next_module = none ↔
      ∀ m ∈ s.architecture.modules, ¬ eligible s m) ∧
    ∀ m : ModuleSpec, s.get_next_module = some m →
      m ∈ s.architecture.modules ∧ eligible s m ∧
      ∀ m' ∈ s.architecture.modules, eligible s m' →
        m.priority ≤ m'.priority := by
  constructor
  · rw [get_next_module_none_iff]
    constructor
    · intro h m hm he
      have : m ∈ availableModules s := (mem_availableModules s m).mpr ⟨hm, he⟩
      rw [h] at this
      simp at this
    · intro h
      cases hav : availableModules s with
      | nil => rfl
      | cons c cs =>
        have : c ∈ availableModules s := by rw [hav]; exact List.mem_cons_self _ _
        have hc := (mem_availableModules s c).mp this
        exact absurd hc.2 (h c hc.1)
  · intro m hm
    obtain ⟨hmem, hmin⟩ := get_next_module_some s m hm
    obtain ⟨hmod, helig⟩ := (mem_availableModules s m).mp hmem
    exact ⟨hmod, helig, fun m' hm' he' =>
      hmin m' ((mem_availableModules s m').mpr ⟨hm', he'⟩)⟩

/-- C10: any module returned by `get_next_module` splits the architecture's
modules list so that every eligible module declared before it has strictly
greater priority; together with C2's minimality this says that among the
eligible modules sharing the smallest priority the earliest declared one is
chosen, and the choice is a function of the state, hence deterministic. -/
theorem C10_tie_break_declaration_order (s : ModuleCreationState)
    (m : ModuleSpec) (h : s.get_next_module = some m) :
    ∃ l₁ l₂, s.architecture.modules = l₁ ++ m :: l₂ ∧
      ∀ x ∈ l₁, eligible s x → m.priority < x.priority := by
  unfold ModuleCreationState.get_next_module at h
  cases hav : availableModules s with
  | nil => rw [hav] at h; simp at h
  | cons c cs =>
    rw [hav] at h
    simp at h
    subst h
    obtain ⟨l₁, l₂, hsplit, hlt⟩ := minByPriority_first cs c
    rw [← hav] at hsplit
    obtain ⟨L₁, L₂, hL, hLf⟩ := filter_split hsplit
    refine ⟨L₁, L₂, hL, ?_⟩
    intro x hx he
    have hxf : x ∈ L₁.filter (fun m => eligibleB s m) :=
      List.mem_filter.mpr ⟨hx, (eligibleB_iff s x).mpr he⟩
    rw [hLf] at hxf
    exact hlt x hxf

/-- C10 witness: on the two-module architecture whose modules share
priority 5, `get_next_module` returns the first declared module and the
guarantee of C10 holds there concretely. -/
theorem C10_witness :
    ∃ l₁ l₂, (create_module_state archTie).architecture.modules =
        l₁ ++ moduleFirst :: l₂ ∧
      ∀ x ∈ l₁, eligible (create_module_state archTie) x →
        moduleFirst.priority < x.priority :=
  C10_tie_break_declaration_order (create_module_state archTie) moduleFirst
    (by decide)

theorem markIP_arch (s : ModuleCreationState) (n : String) :
    (s.mark_module_in_progress n).architecture = s.architecture := rfl

theorem markIP_completed (s : ModuleCreationState) (n : String) :
    (s.mark_module_in_progress n).completed_modules = s.completed_modules := rfl

theorem markIP_pending_mem (s : ModuleCreationState) (n x : String)
    (hp : s.pending_modules.Nodup) :
    x ∈ (s.mark_module_in_progress n).pending_modules ↔
      x ∈ s.pending_modules ∧ x ≠ n := by
  unfold ModuleCreationState.mark_module_in_progress
  by_cases hn : n ∈ s.pending_modules
  · simp only [hn, if_pos]
    rw [hp.mem_erase_iff]
    exact and_comm
  · simp only [hn, if_neg, not_false_iff]
    constructor
    · intro h
      exact ⟨h, fun he => hn (he ▸ h)⟩
    · exact fun h => h.1

theorem markIP_inprog_mem (s : ModuleCreationState) (n x : String) :
    x ∈ (s.mark_module_in_progress n).in_progress_modules ↔
      x ∈ s.in_progress_modules ∨ x = n := by
  unfold ModuleCreationState.mark_module_in_progress
  by_cases hn : n ∈ s.in_progress_modules
  · simp only [hn, if_pos]
    constructor
    · exact fun h => Or.inl h
    · rintro (h | h)
      · exact h
      · exact h ▸ hn
  · simp [hn]

theorem markIP_pending_nodup (s : ModuleCreationState) (n : String)
    (hp : s.pending_modules.Nodup) :
    (s.mark_module_in_progress n).pending_modules.Nodup := by
  unfold ModuleCreationState.mark_module_in_progress
  by_cases hn : n ∈ s.pending_modules
  · simp only [hn, if_pos]
    exact hp.erase n
  · simpa [hn] using hp

theorem markIP_inprog_nodup (s : ModuleCreationState) (n : String)
    (hi : s.in_progress_modules.Nodup) :
    (s.mark_module_in_progress n).in_progress_modules.Nodup := by
  unfold ModuleCreationState.mark_module_in_progress
  by_cases hn : n ∈ s.in_progress_modules
  · simpa [hn] using hi
  · simp only [hn, if_neg, not_false_iff]
    rw [List.nodup_append]
    refine ⟨hi, List.nodup_singleton n, ?_⟩
    intro a ha hb
    simp at hb
    subst hb
    exact hn ha

theorem markC_arch (s : ModuleCreationState) (n : String) :
    (s.mark_module_completed n).architecture = s.architecture := rfl

theorem markC_pending (s : ModuleCreationState) (n : String) :
    (s.mark_module_completed n).pending_modules = s.pending_modules := rfl

theorem markC_inprog_mem (s : ModuleCreationState) (n x : String)
    (hi : s.in_progress_modules.Nodup) :
    x ∈ (s.mark_module_completed n).in_progress_modules ↔
      x ∈ s.in_progress_modules ∧ x ≠ n := by
  unfold ModuleCreationState.mark_module_completed
  by_cases hn : n ∈ s.in_progress_modules
  · simp only [hn, if_pos]
    rw [hi.mem_erase_iff]
    exact and_comm
  · simp only [hn, if_neg, not_false_iff]
    constructor
    · intro h
      exact ⟨h, fun he => hn (he ▸ h)⟩
    · exact fun h => h.1

theorem markC_completed_mem (s : ModuleCreationState) (n x : String) :
    x ∈ (s.mark_module_completed n).completed_modules ↔
      x ∈ s.completed_modules ∨ x = n := by
  unfold ModuleCreationState.mark_module_completed
  by_cases hn : n ∈ s.completed_modules
  · simp only [hn, if_pos]
    constructor
    · exact fun h => Or.inl h
    · rintro (h | h)
      · exact h
      · exact h ▸ hn
  · simp [hn]

theorem markC_inprog_nodup (s : ModuleCreationState) (n : String)
    (hi : s.in_progress_modules.Nodup) :
    (s.mark_module_completed n).in_progress_modules.Nodup := by
  unfold ModuleCreationState.mark_module_completed
  by_cases hn : n ∈ s.in_progress_modules
  · simp only [hn, if_pos]
    exact hi.erase n
  · simpa [hn] using hi

theorem markC_completed_nodup (s : ModuleCreationState) (n : String)
    (hc : s.completed_modules.Nodup) :
    (s.mark_module_completed n).completed_modules.Nodup := by
  unfold ModuleCreationState.mark_module_completed
  by_cases hn : n ∈ s.completed_modules
  · simpa [hn] using hc
  · simp only [hn, if_neg, not_false_iff]
    rw [List.nodup_append]
    refine ⟨hc, List.nodup_singleton n, ?_⟩
    intro a ha hb
    simp at hb
    subst hb
    exact hn ha

theorem markIP_noop (t : ModuleCreationState) (n : String)
    (h1 : n ∉ t.pending_modules) (h2 : n ∈ t.in_progress_modules) :
    t.mark_module_in_progress n = t := by
  unfold ModuleCreationState.mark_module_in_progress
  rw [if_neg h1, if_pos h2]

theorem markC_noop (t : ModuleCreationState) (n : String)
    (h1 : n ∉ t.in_progress_modules) (h2 : n ∈ t.completed_modules) :
    t.mark_module_completed n = t := by
  unfold ModuleCreationState.mark_module_completed
  rw [if_neg h1, if_pos h2]

/-- C8: on every state whose `pending_modules` and `in_progress_modules`
lists are duplicate free (the data model keeps all three lists duplicate
free), `mark_module_in_progress` and `mark_module_completed` are
idempotent — calling either twice with the same name yields exactly the
state of calling it once, so the repetition can never duplicate the name
within or across the three lists. -/
theorem C8_mark_idempotent (s : ModuleCreationState) (n : String)
    (hp : s.pending_modules.Nodup) (hi : s.in_progress_modules.Nodup) :
    (s.mark_module_in_progress n).mark_module_in_progress n =
      s.mark_module_in_progress n ∧
    (s.mark_module_completed n).mark_module_completed n =
      s.mark_module_completed n := by
  constructor
  · have h1 : n ∉ (s.mark_module_in_progress n).pending_modules := by
      rw [markIP_pending_mem s n n hp]
      simp
    have h2 : n ∈ (s.mark_module_in_progress n).in_progress_modules := by
      rw [markIP_inprog_mem]
      exact Or.inr rfl
    exact markIP_noop _ n h1 h2
  · have h1 : n ∉ (s.mark_module_completed n).in_progress_modules := by
      rw [markC_inprog_mem s n n hi]
      simp
    have h2 : n ∈ (s.mark_module_completed n).completed_modules := by
      rw [markC_completed_mem]
      exact Or.inr rfl
    exact markC_noop _ n h1 h2

/-- C8 witness: idempotence evaluated on the initialized state of the
storage/api architecture at the name storage.py. -/
theorem C8_witness :
    ((create_module_state archStorageApi).mark_module_in_progress
        "storage.py").mark_module_in_progress "storage.py" =
      (create_module_state archStorageApi).mark_module_in_progress
        "storage.py" ∧
    ((create_module_state archStorageApi).mark_module_completed
        "storage.py").mark_module_completed "storage.py" =
      (create_module_state archStorageApi).mark_module_completed
        "storage.py" :=
  C8_mark_idempotent (create_module_state archStorageApi) "storage.py"
    (by decide) (by decide)

theorem stateInv_markIP (s : ModuleCreationState) (n : String)
    (hInv : StateInv s) (hname : n ∈ archNames s.architecture)
    (hnc : n ∉ s.completed_modules) :
    StateInv (s.mark_module_in_progress n) := by
  obtain ⟨hp, hi, hc, dpi, dpc, dic, hun⟩ := hInv
  refine ⟨markIP_pending_nodup s n hp, markIP_inprog_nodup s n hi,
    by rw [markIP_completed]; exact hc, ?_, ?_, ?_, ?_⟩
  · intro a ha hb
    rw [markIP_pending_mem s n a hp] at ha
    rw [markIP_inprog_mem] at hb
    rcases hb with hb | hb
    · exact dpi ha.1 hb
    · exact ha.2 hb
  · intro a ha hb
    rw [markIP_pending_mem s n a hp] at ha
    rw [markIP_completed] at hb
    exact dpc ha.1 hb
  · intro a ha hb
    rw [markIP_inprog_mem] at ha
    rw [markIP_completed] at hb
    rcases ha with ha | ha
    · exact dic ha hb
    · exact hnc (ha ▸ hb)
  · intro x
    rw [markIP_pending_mem s n x hp, markIP_inprog_mem, markIP_completed,
      markIP_arch]
    constructor
    · rintro (⟨hx, _⟩ | hx | hx)
      · exact (hun x).mp (Or.inl hx)
      · rcases hx with hx | hx
        · exact (hun x).mp (Or.inr (Or.inl hx))
        · exact hx ▸ hname
      · exact (hun x).mp (Or.inr (Or.inr hx))
    · intro hx
      rcases (hun x).mpr hx with h | h | h
      · by_cases hxn : x = n
        · exact Or.inr (Or.inl (Or.inr hxn))
        · exact Or.inl ⟨h, hxn⟩
      · exact Or.inr (Or.inl (Or.inl h))
      · exact Or.inr (Or.inr h)

theorem stateInv_markC (s : ModuleCreationState) (n : String)
    (hInv : StateInv s) (hname : n ∈ archNames s.architecture)
    (hnp : n ∉ s.pending_modules) :
    StateInv (s.mark_module_completed n) := by
  obtain ⟨hp, hi, hc, dpi, dpc, dic, hun⟩ := hInv
  refine ⟨by rw [markC_pending]; exact hp, markC_inprog_nodup s n hi,
    markC_completed_nodup s n hc, ?_, ?_, ?_, ?_⟩
  · intro a ha hb
    rw [markC_pending] at ha
    rw [markC_inprog_mem s n a hi] at hb
    exact dpi ha hb.1
  · intro a ha hb
    rw [markC_pending] at ha
    rw [markC_completed_mem] at hb
    rcases hb with hb | hb
    · exact dpc ha hb
    · exact hnp (hb ▸ ha)
  · intro a ha hb
    rw [markC_inprog_mem s n a hi] at ha
    rw [markC_completed_mem] at hb
    rcases hb with hb | hb
    · exact dic ha.1 hb
    · exact ha.2 hb
  · intro x
    rw [markC_pending, markC_inprog_mem s n x hi, markC_completed_mem,
      markC_arch]
    constructor
    · rintro (hx | ⟨hx, _⟩ | hx)
      · exact (hun x).mp (Or.inl hx)
      · exact (hun x).mp (Or.inr (Or.inl hx))
      · rcases hx with hx | hx
        · exact (hun x).mp (Or.inr (Or.inr hx))
        · exact hx ▸ hname
    · intro hx
      rcases (hun x).mpr hx with h | h | h
      · exact Or.inl h
      · by_cases hxn : x = n
        · exact Or.inr (Or.inr (Or.inr hxn))
        · exact Or.inr (Or.inl ⟨h, hxn⟩)
      · exact Or.inr (Or.inr (Or.inl h))

theorem stateInv_applyMarks :
    ∀ (ops : List MarkOp) (s : ModuleCreationState), StateInv s →
      GuardedSeq s ops → StateInv (applyMarks s ops) := by
  intro ops
  induction ops with
  | nil => intro s hInv _; exact hInv
  | cons op ops ih =>
    intro s hInv hg
    obtain ⟨⟨hname, hguard⟩, hrest⟩ := hg
    have hstep : StateInv (applyMark s op) := by
      cases op with
      | inProgressOp n => exact stateInv_markIP s n hInv hname hguard
      | completedOp n => exact stateInv_markC s n hInv hname hguard
    exact ih (applyMark s op) hstep hrest

theorem stateInv_init (a : SystemArchitecture)
    (hnd : (archNames a).Nodup) : StateInv (create_module_state a) := by
  refine ⟨hnd, List.nodup_nil, List.nodup_nil, ?_, ?_, ?_, ?_⟩
  · intro x _ hb
    simp [create_module_state] at hb
  · intro x _ hb
    simp [create_module_state] at hb
  · intro x _ hb
    simp [create_module_state] at hb
  · intro x
    simp [create_module_state, archNames]

/-- C1 (amended): starting from the initialized state, every guarded
sequence of mark calls with module names of the architecture — one in
which `mark_module_in_progress` is never applied to a name already in
`completed_modules` and `mark_module_completed` is never applied to a name
still in `pending_modules`, which is how the driving loop calls them —
preserves the partition invariant: the three lists stay duplicate free,
pairwise disjoint, and their union stays the architecture's module-name
set. -/
theorem C1_partition_invariant (a : SystemArchitecture) (ops : List MarkOp)
    (hnd : (archNames a).Nodup)
    (hg : GuardedSeq (create_module_state a) ops) :
    StateInv (applyMarks (create_module_state a) ops) :=
  stateInv_applyMarks ops (create_module_state a) (stateInv_init a hnd) hg

/-- C1 witness: the guarded two-call sequence marking storage.py in
progress and then completed on the storage/api architecture keeps the
invariant. -/
theorem C1_witness :
    StateInv (applyMarks (create_module_state archStorageApi)
      [MarkOp.inProgressOp "storage.py", MarkOp.completedOp "storage.py"]) :=
  C1_partition_invariant archStorageApi
    [MarkOp.inProgressOp "storage.py", MarkOp.completedOp "storage.py"]
    (by decide)
    ⟨⟨by decide, by decide⟩, ⟨by decide, by decide⟩, trivial⟩

/-- C1 counterexample: on the one-module architecture, the single call
`mark_module_completed "a.py"` — a sequence of allowed calls whose names
are module names of the architecture — leaves a.py in both
`pending_modules` and `completed_modules`, so the claimed invariant fails
for an arbitrary call sequence. -/
theorem C1_counterexample :
    ArchSeq archSingle [MarkOp.completedOp "a.py"] ∧
    StateInv (create_module_state archSingle) ∧
    ¬ StateInv (applyMarks (create_module_state archSingle)
        [MarkOp.completedOp "a.py"]) := by
  refine ⟨?_, ?_, ?_⟩
  · intro op hop
    simp at hop
    subst hop
    decide
  · refine ⟨by decide, by decide, by decide, ?_, ?_, ?_, ?_⟩
    · intro x _ hb
      simp [create_module_state] at hb
    · intro x _ hb
      simp [create_module_state] at hb
    · intro x _ hb
      simp [create_module_state] at hb
    · intro x
      simp [create_module_state, archSingle, archNames]
  · intro hInv
    obtain ⟨_, _, _, _, hdisj, _, _⟩ := hInv
    exact hdisj
      (show "a.py" ∈ (applyMarks (create_module_state archSingle)
        [MarkOp.completedOp "a.py"]).pending_modules by decide)
      (by decide)

/-- Invariant of the driving loop: the state belongs to architecture `a`,
nothing is left in progress between iterations, and the completed list is
duplicate free and holds only module names of `a`. -/
def LoopInv (a : SystemArchitecture) (s : ModuleCreationState) : Prop :=
  s.architecture = a ∧ s.in_progress_modules = [] ∧
  s.completed_modules.Nodup ∧ ∀ x ∈ s.completed_modules, x ∈ archNames a

theorem loopInv_init (a : SystemArchitecture) :
    LoopInv a (create_module_state a) :=
  ⟨rfl, rfl, List.nodup_nil, by simp [create_module_state]⟩

theorem next_module_facts (a : SystemArchitecture) (s : ModuleCreationState)
    (m : ModuleSpec) (hInv : LoopInv a s) (h : s.get_next_module = some m) :
    m ∈ a.modules ∧ m.name ∉ s.completed_modules ∧
      ∀ d ∈ m.dependencies, d ∈ s.completed_modules := by
  obtain ⟨harch, _, _, _⟩ := hInv
  obtain ⟨hmem, _⟩ := get_next_module_some s m h
  obtain ⟨hmod, helig⟩ := (mem_availableModules s m).mp hmem
  rw [harch] at hmod
  exact ⟨hmod, helig.1, helig.2.2⟩

theorem stepC_fields (s : ModuleCreationState) (n : String)
    (hip : s.in_progress_modules = []) (hnc : n ∉ s.completed_modules) :
    (s.mark_module_completed n).architecture = s.architecture ∧
    (s.mark_module_completed n).in_progress_modules = [] ∧
    (s.mark_module_completed n).completed_modules =
      s.completed_modules ++ [n] := by
  unfold ModuleCreationState.mark_module_completed
  rw [hip]
  simp [hnc]

theorem stepIPC_fields (s : ModuleCreationState) (n : String)
    (hip : s.in_progress_modules = []) (hnc : n ∉ s.completed_modules) :
    ((s.mark_module_in_progress n).mark_module_completed n).architecture =
      s.architecture ∧
    ((s.mark_module_in_progress n).mark_module_completed n).in_progress_modules
      = [] ∧
    ((s.mark_module_in_progress n).mark_module_completed n).completed_modules
      = s.completed_modules ++ [n] := by
  unfold ModuleCreationState.mark_module_in_progress
    ModuleCreationState.mark_module_completed
  rw [hip]
  simp [hnc]

theorem loopInv_append (a : SystemArchitecture) (s' : ModuleCreationState)
    (s : ModuleCreationState) (n : String)
    (hInv : LoopInv a s) (hnc : n ∉ s.completed_modules)
    (hname : n ∈ archNames a)
    (harch : s'.architecture = s.architecture)
    (hip : s'.in_progress_modules = [])
    (hcomp : s'.completed_modules = s.completed_modules ++ [n]) :
    LoopInv a s' := by
  obtain ⟨ha, _, hnodup, hsub⟩ := hInv
  refine ⟨by rw [harch, ha], hip, ?_, ?_⟩
  · rw [hcomp, List.nodup_append]
    refine ⟨hnodup, List.nodup_singleton n, ?_⟩
    intro x hx hb
    simp at hb
    subst hb
    exact hnc hx
  · intro x hx
    rw [hcomp] at hx
    rcases List.mem_append.mp hx with hx | hx
    · exact hsub x hx
    · simp at hx
      exact hx ▸ hname

theorem completed_length_lt (a : SystemArchitecture)
    (s : ModuleCreationState) (hInv : LoopInv a s)
    (hnotdone : s.is_system_complete = false) :
    s.completed_modules.length < a.modules.length := by
  obtain ⟨harch, _, hnodup, hsub⟩ := hInv
  have hsp : List.Subperm s.completed_modules (archNames a) :=
    List.subperm_of_subset hnodup (fun x hx => hsub x hx)
  have hle : s.completed_modules.length ≤ a.modules.length := by
    have := hsp.length_le
    simpa [archNames] using this
  have hne : s.completed_modules.length ≠ a.modules.length := by
    intro he
    rw [ModuleCreationState.is_system_complete, harch] at hnotdone
    simp [he] at hnotdone
  omega

theorem completed_perm_of_done (a : SystemArchitecture)
    (s : ModuleCreationState) (hInv : LoopInv a s)
    (hdone : s.is_system_complete = true) :
    List.Perm s.completed_modules (archNames a) := by
  obtain ⟨harch, _, hnodup, hsub⟩ := hInv
  have hsp : List.Subperm s.completed_modules (archNames a) :=
    List.subperm_of_subset hnodup (fun x hx => hsub x hx)
  have hlen : s.completed_modules.length = a.modules.length := by
    rw [ModuleCreationState.is_system_complete, harch] at hdone
    simpa using hdone
  exact hsp.perm_of_length_le (by simp [archNames, hlen])

theorem scheduler_progress (a : SystemArchitecture)
    (s : ModuleCreationState) (hInv : LoopInv a s)
    (hnd : (archNames a).Nodup)
    (hdeps : ∀ m ∈ a.modules, ∀ d ∈ m.dependencies, d ∈ archNames a)
    (hwf : WellFounded (depRel a))
    (hlt : s.completed_modules.length < a.modules.length) :
    ∃ m, s.get_next_module = some m := by
  obtain ⟨harch, hip, hnodup, hsub⟩ := hInv
  have hnonempty : ∃ n, n ∈ archNames a ∧ n ∉ s.completed_modules := by
    by_contra hno
    push_neg at hno
    have hsubset : archNames a ⊆ s.completed_modules := fun n hn => hno n hn
    have := (List.subperm_of_subset hnd hsubset).length_le
    simp [archNames] at this
    omega
  obtain ⟨n₀, hn₀, hmin⟩ := hwf.has_min
    {n | n ∈ archNames a ∧ n ∉ s.completed_modules} hnonempty
  obtain ⟨hn₀names, hn₀nc⟩ := hn₀
  obtain ⟨m, hm, hmname⟩ := by
    simpa [archNames, List.mem_map] using hn₀names
  have helig : eligible s m := by
    refine ⟨hmname ▸ hn₀nc, by rw [hip]; simp, ?_⟩
    intro d hd
    have hrel : depRel a d n₀ := ⟨m, hm, hmname, hd⟩
    have hdnames : d ∈ archNames a := hdeps m hm d hd
    by_contra hdc
    exact hmin d ⟨hdnames, hdc⟩ hrel
  have hmem : m ∈ availableModules s :=
    (mem_availableModules s m).mpr ⟨by rw [harch]; exact hm, helig⟩
  cases hav : availableModules s with
  | nil => rw [hav] at hmem; simp at hmem
  | cons c cs =>
    exact ⟨minByPriority c cs, by
      unfold ModuleCreationState.get_next_module
      rw [hav]⟩

theorem create_modules_loop_succ (fuel : Nat) (s : ModuleCreationState) :
    create_modules_loop (fuel + 1) s =
      if s.is_system_complete then (s, LoopExit.completedLoop, [])
      else
        match s.get_next_module with
        | none => (s, LoopExit.stuck, [])
        | some m =>
          if hasUITerm m.name then
            create_modules_loop fuel (s.mark_module_completed m.name)
          else
            let r := create_modules_loop fuel
              ((s.mark_module_in_progress m.name).mark_module_completed m.name)
            (r.1, r.2.1, m.name :: r.2.2) := rfl

theorem loop_completes (a : SystemArchitecture)
    (hnd : (archNames a).Nodup)
    (hdeps : ∀ m ∈ a.modules, ∀ d ∈ m.dependencies, d ∈ archNames a)
    (hwf : WellFounded (depRel a)) :
    ∀ (fuel : Nat) (s : ModuleCreationState), LoopInv a s →
      a.modules.length - s.completed_modules.length < fuel →
      (create_modules_loop fuel s).2.1 = LoopExit.completedLoop ∧
      (create_modules_loop fuel s).1.is_system_complete = true ∧
      List.Perm (create_modules_loop fuel s).1.completed_modules
        (archNames a) := by
  intro fuel
  induction fuel with
  | zero => intro s _ hlt; omega
  | succ f ih =>
    intro s hInv hlt
    by_cases hdone : s.is_system_complete = true
    · rw [create_modules_loop_succ, if_pos hdone]
      exact ⟨rfl, hdone, completed_perm_of_done a s hInv hdone⟩
    · have hdone' : s.is_system_complete = false := by
        simpa using hdone
      have hlt2 := completed_length_lt a s hInv hdone'
      obtain ⟨m, hm⟩ := scheduler_progress a s hInv hnd hdeps hwf hlt2
      obtain ⟨hmod, hnc, hdepsm⟩ := next_module_facts a s m hInv hm
      have hname : m.name ∈ archNames a := List.mem_map_of_mem _ hmod
      rw [create_modules_loop_succ, if_neg (by simp [hdone']), hm]
      by_cases hui : hasUITerm m.name
      · simp only [hui, if_pos]
        have hf := stepC_fields s m.name hInv.2.1 hnc
        have hInv' := loopInv_append a _ s m.name hInv hnc hname
          hf.1 hf.2.1 hf.2.2
        have hlen : (s.mark_module_completed m.name).completed_modules.length
            = s.completed_modules.length + 1 := by
          rw [hf.2.2]; simp
        exact ih (s.mark_module_completed m.name) hInv' (by omega)
      · simp only [hui, if_neg, Bool.false_eq_true, not_false_iff]
        have hf := stepIPC_fields s m.name hInv.2.1 hnc
        have hInv' := loopInv_append a _ s m.name hInv hnc hname
          hf.1 hf.2.1 hf.2.2
        have hlen : ((s.mark_module_in_progress m.name).mark_module_completed
            m.name).completed_modules.length
            = s.completed_modules.length + 1 := by
          rw [hf.2.2]; simp
        exact ih ((s.mark_module_in_progress m.name).mark_module_completed
          m.name) hInv' (by omega)

/-- C3: for every architecture with pairwise distinct module names whose
every dependency names an existing module (the spec's data-model
assumptions) and whose dependency graph over the module names is acyclic
(well founded), the driving loop started on the initialized state finishes
with the `is_system_complete` exit: every module name is completed exactly
once — the chronological completion list is a duplicate-free permutation
of the architecture's module-name list. -/
theorem C3_acyclic_schedules_all (a : SystemArchitecture)
    (hnd : (archNames a).Nodup)
    (hdeps : ∀ m ∈ a.modules, ∀ d ∈ m.dependencies, d ∈ archNames a)
    (hwf : WellFounded (depRel a)) :
    (create_modules_loop (a.modules.length + 1) (create_module_state a)).2.1
      = LoopExit.completedLoop ∧
    (create_modules_loop (a.modules.length + 1)
      (create_module_state a)).1.is_system_complete = true ∧
    (create_modules_loop (a.modules.length + 1)
      (create_module_state a)).1.completed_modules.Nodup ∧
    List.Perm (create_modules_loop (a.modules.length + 1)
      (create_module_state a)).1.completed_modules (archNames a) := by
  have h := loop_completes a hnd hdeps hwf (a.modules.length + 1)
    (create_module_state a) (loopInv_init a) (by simp [create_module_state])
  exact ⟨h.1, h.2.1, (h.2.2.nodup_iff).mpr hnd, h.2.2⟩

theorem depRel_archStorageApi_wf : WellFounded (depRel archStorageApi) := by
  have accStorage : Acc (depRel archStorageApi) "storage.py" := by
    constructor
    intro d hd
    obtain ⟨m, hm, hmname, hdep⟩ := hd
    simp [archStorageApi] at hm
    rcases hm with h | h <;> subst h <;> simp_all
  constructor
  intro n
  constructor
  intro d hd
  obtain ⟨m, hm, hmname, hdep⟩ := hd
  simp [archStorageApi] at hm
  rcases hm with h | h <;> subst h
  · simp at hdep
  · simp at hdep
    exact hdep ▸ accStorage

/-- C3 witness: on the spec's storage/api architecture (acyclic, all
dependencies existing, distinct names) the loop completes with the
completed list a duplicate-free permutation of both module names. -/
theorem C3_witness :
    (create_modules_loop (archStorageApi.modules.length + 1)
      (create_module_state archStorageApi)).2.1 = LoopExit.completedLoop ∧
    (create_modules_loop (archStorageApi.modules.length + 1)
      (create_module_state archStorageApi)).1.is_system_complete = true ∧
    (create_modules_loop (archStorageApi.modules.length + 1)
      (create_module_state archStorageApi)).1.completed_modules.Nodup ∧
    List.Perm (create_modules_loop (archStorageApi.modules.length + 1)
      (create_module_state archStorageApi)).1.completed_modules
      (archNames archStorageApi) :=
  C3_acyclic_schedules_all archStorageApi (by decide) (by decide)
    depRel_archStorageApi_wf

theorem name_inj (a : SystemArchitecture) (hnd : (archNames a).Nodup)
    {m m' : ModuleSpec} (hm : m ∈ a.modules) (hm' : m' ∈ a.modules)
    (h : m.name = m'.name) : m = m' :=
  List.inj_on_of_nodup_map hnd hm hm' h

theorem blocked_step (a : SystemArchitecture) (B : Set String)
    (hB : BlockedSet a B) (s : ModuleCreationState) (m : ModuleSpec)
    (hInv : LoopInv a s) (hdisjB : ∀ n ∈ B, n ∉ s.completed_modules)
    (hm : s.get_next_module = some m) : m.name ∉ B := by
  intro hmB
  obtain ⟨hmod, _, hdepsm⟩ := next_module_facts a s m hInv hm
  obtain ⟨d, hd, hcase⟩ := hB.2 m.name hmB m hmod rfl
  have hdc : d ∈ s.completed_modules := hdepsm d hd
  rcases hcase with hdB | hdn
  · exact hdisjB d hdB hdc
  · exact hdn (hInv.2.2.2 d hdc)

theorem not_done_of_blocked (a : SystemArchitecture) (B : Set String)
    (hB : BlockedSet a B) (n₀ : String) (hn₀ : n₀ ∈ B)
    (s : ModuleCreationState) (hInv : LoopInv a s)
    (hdisjB : ∀ n ∈ B, n ∉ s.completed_modules) :
    s.is_system_complete = false := by
  by_contra h
  have hdone : s.is_system_complete = true := by simpa using h
  have hperm := completed_perm_of_done a s hInv hdone
  have : n₀ ∈ s.completed_modules := hperm.mem_iff.mpr (hB.1 n₀ hn₀)
  exact hdisjB n₀ hn₀ this

theorem loop_stuck_of_blocked (a : SystemArchitecture) (B : Set String)
    (hB : BlockedSet a B) (n₀ : String) (hn₀ : n₀ ∈ B) :
    ∀ (fuel : Nat) (s : ModuleCreationState), LoopInv a s →
      (∀ n ∈ B, n ∉ s.completed_modules) →
      a.modules.length - s.completed_modules.length < fuel →
      (create_modules_loop fuel s).2.1 = LoopExit.stuck ∧
      (create_modules_loop fuel s).1.get_next_module = none ∧
      (∀ x ∈ (create_modules_loop fuel s).1.completed_modules,
        x ∈ archNames a) ∧
      ∃ nn ∈ archNames a,
        nn ∉ (create_modules_loop fuel s).1.completed_modules := by
  intro fuel
  induction fuel with
  | zero => intro s _ _ hlt; omega
  | succ f ih =>
    intro s hInv hdisjB hlt
    have hnotdone := not_done_of_blocked a B hB n₀ hn₀ s hInv hdisjB
    rw [create_modules_loop_succ, if_neg (by simp [hnotdone])]
    cases hnext : s.get_next_module with
    | none =>
      exact ⟨rfl, hnext, hInv.2.2.2, n₀, hB.1 n₀ hn₀, hdisjB n₀ hn₀⟩
    | some m =>
      have hmB := blocked_step a B hB s m hInv hdisjB hnext
      obtain ⟨hmod, hnc, _⟩ := next_module_facts a s m hInv hnext
      have hname : m.name ∈ archNames a := List.mem_map_of_mem _ hmod
      have hdisjB' : ∀ (s' : ModuleCreationState),
          s'.completed_modules = s.completed_modules ++ [m.name] →
          ∀ n ∈ B, n ∉ s'.completed_modules := by
        intro s' hcomp n hn hmem
        rw [hcomp] at hmem
        rcases List.mem_append.mp hmem with h | h
        · exact hdisjB n hn h
        · simp at h
          exact hmB (h ▸ hn)
      by_cases hui : hasUITerm m.name
      · simp only [hui, if_pos]
        have hf := stepC_fields s m.name hInv.2.1 hnc
        have hInv' := loopInv_append a _ s m.name hInv hnc hname
          hf.1 hf.2.1 hf.2.2
        have hlen : (s.mark_module_completed m.name).completed_modules.length
            = s.completed_modules.length + 1 := by
          rw [hf.2.2]; simp
        have hlt2 := completed_length_lt a s hInv hnotdone
        exact ih (s.mark_module_completed m.name) hInv'
          (hdisjB' _ hf.2.2) (by omega)
      · simp only [hui, if_neg, Bool.false_eq_true, not_false_iff]
        have hf := stepIPC_fields s m.name hInv.2.1 hnc
        have hInv' := loopInv_append a _ s m.name hInv hnc hname
          hf.1 hf.2.1 hf.2.2
        have hlen : ((s.mark_module_in_progress m.name).mark_module_completed
            m.name).completed_modules.length
            = s.completed_modules.length + 1 := by
          rw [hf.2.2]; simp
        have hlt2 := completed_length_lt a s hInv hnotdone
        exact ih ((s.mark_module_in_progress m.name).mark_module_completed
          m.name) hInv' (hdisjB' _ hf.2.2) (by omega)

theorem blockedSet_of_cycle (a : SystemArchitecture)
    (hnd : (archNames a).Nodup) (h : HasDepCycle a) :
    ∃ B : Set String, BlockedSet a B ∧ ∃ n₀, n₀ ∈ B := by
  obtain ⟨c, hpos, hcyc⟩ := h
  refine ⟨{n | n ∈ c}, ⟨?_, ?_⟩, c.get ⟨0, hpos⟩, c.get_mem _ _⟩
  · intro n hn
    obtain ⟨i, hi⟩ := List.mem_iff_get.mp hn
    obtain ⟨m, hm, hmname, _⟩ := hcyc i
    rw [← hi, ← hmname]
    exact List.mem_map_of_mem _ hm
  · intro n hn m' hm' hm'name
    obtain ⟨i, hi⟩ := List.mem_iff_get.mp hn
    obtain ⟨m, hm, hmname, hdep⟩ := hcyc i
    have hmm : m' = m := name_inj a hnd hm' hm (by rw [hm'name, ← hi, hmname])
    refine ⟨c.get ⟨(i.1 + 1) % c.length, Nat.mod_lt _ hpos⟩, ?_, Or.inl ?_⟩
    · rw [hmm]; exact hdep
    · exact c.get_mem _ _

theorem blockedSet_of_missing (a : SystemArchitecture)
    (hnd : (archNames a).Nodup) (h : HasMissingDep a) :
    ∃ B : Set String, BlockedSet a B ∧ ∃ n₀, n₀ ∈ B := by
  obtain ⟨m₀, hm₀, d₀, hd₀, hd₀n⟩ := h
  refine ⟨{m₀.name}, ⟨?_, ?_⟩, m₀.name, rfl⟩
  · intro n hn
    rw [Set.mem_singleton_iff] at hn
    rw [hn]
    exact List.mem_map_of_mem _ hm₀
  · intro n hn m' hm' hm'name
    rw [Set.mem_singleton_iff] at hn
    have hmm : m' = m₀ := name_inj a hnd hm' hm₀ (by rw [hm'name, hn])
    refine ⟨d₀, ?_, Or.inr hd₀n⟩
    rw [hmm]
    exact hd₀

/-- C4: for every architecture with pairwise distinct module names whose
dependency graph contains a cycle or whose modules declare a dependency on
a missing module name, the driving loop started on the initialized state
terminates by exiting on `get_next_module = none` (the `break`), at a
state whose completed list is a strict subset of the architecture's module
names — the loop halts instead of looping forever, and the halt is a
scheduling deadlock, not completion. -/
theorem C4_cycle_or_missing_halts (a : SystemArchitecture)
    (hnd : (archNames a).Nodup)
    (h : HasDepCycle a ∨ HasMissingDep a) :
    (create_modules_loop (a.modules.length + 1) (create_module_state a)).2.1
      = LoopExit.stuck ∧
    (create_modules_loop (a.modules.length + 1)
      (create_module_state a)).1.get_next_module = none ∧
    (∀ x ∈ (create_modules_loop (a.modules.length + 1)
      (create_module_state a)).1.completed_modules, x ∈ archNames a) ∧
    ∃ nn ∈ archNames a, nn ∉ (create_modules_loop (a.modules.length + 1)
      (create_module_state a)).1.completed_modules := by
  obtain ⟨B, hB, n₀, hn₀⟩ :=
    h.elim (blockedSet_of_cycle a hnd) (blockedSet_of_missing a hnd)
  exact loop_stuck_of_blocked a B hB n₀ hn₀ (a.modules.length + 1)
    (create_module_state a) (loopInv_init a)
    (by intro n _ hc; simp [create_module_state] at hc)
    (by simp [create_module_state])

/-- C4 witness: on the two-module cyclic architecture the loop halts stuck
with nothing completed, a strict subset of the module names. -/
theorem C4_witness :
    (create_modules_loop (archCycle.modules.length + 1)
      (create_module_state archCycle)).2.1 = LoopExit.stuck ∧
    (create_modules_loop (archCycle.modules.length + 1)
      (create_module_state archCycle)).1.get_next_module = none ∧
    (∀ x ∈ (create_modules_loop (archCycle.modules.length + 1)
      (create_module_state archCycle)).1.completed_modules,
      x ∈ archNames archCycle) ∧
    ∃ nn ∈ archNames archCycle,
      nn ∉ (create_modules_loop (archCycle.modules.length + 1)
        (create_module_state archCycle)).1.completed_modules :=
  C4_cycle_or_missing_halts archCycle (by decide)
    (Or.inl ⟨["a.py", "b.py"], by decide, by
      intro i
      fin_cases i
      · exact ⟨moduleCycA, by simp [archCycle], rfl, by simp [moduleCycA]⟩
      · exact ⟨moduleCycB, by simp [archCycle], rfl, by simp [moduleCycB]⟩⟩)

theorem validate_foldl_eq (impl : List String) (msg : String → String) :
    ∀ (req : List String) (acc : List String),
      req.foldl (fun issues r =>
        if impl.contains r then issues else issues ++ [msg r]) acc
      = acc ++ (req.filter (fun r => !(impl.contains r))).map msg := by
  intro req
  induction req with
  | nil => intro acc; simp
  | cons r rs ih =>
    intro acc
    rw [List.foldl_cons]
    by_cases h : impl.contains r = true
    · rw [h, if_pos rfl, ih acc, List.filter_cons_of_neg (by rw [h]; simp)]
    · have hb : impl.contains r = false := by simpa using h
      rw [hb, if_neg (by simp), ih (acc ++ [msg r]),
        List.filter_cons_of_pos (by rw [hb]; simp)]
      simp

theorem validate_none_eq (ms : ModuleSpec) (itf : ModuleInterface)
    (hl : itf.classes.lookup ms.class_name = none) :
    _validate_module_interface ms itf =
      ["Main class '" ++ ms.class_name ++ "' not found"] := by
  unfold _validate_module_interface
  rw [hl]

theorem validate_some_eq (ms : ModuleSpec) (itf : ModuleInterface)
    (cms : List String)
    (hl : itf.classes.lookup ms.class_name = some cms) :
    _validate_module_interface ms itf =
      (ms.interfaces.filter
        (fun r => !((cms.map sigName).contains r))).map
        (fun r => "Required method '" ++ r ++ "' not implemented in "
          ++ ms.class_name) := by
  unfold _validate_module_interface
  rw [hl]
  simpa using validate_foldl_eq (cms.map sigName)
    (fun r => "Required method '" ++ r ++ "' not implemented in "
      ++ ms.class_name) ms.interfaces []

/-- C6: `_validate_module_interface` produces exactly one missing-class
issue (naming the class) and no method issues when the spec's class is
absent from the interface's class mapping; otherwise it produces, in
declared order, one missing-method issue per required name not among that
class's extracted method names; and it returns the empty list exactly when
the class exists and every required method name is present. -/
theorem C6_validate_interface (ms : ModuleSpec) (itf : ModuleInterface) :
    (itf.classes.lookup ms.class_name = none →
      _validate_module_interface ms itf =
        ["Main class '" ++ ms.class_name ++ "' not found"]) ∧
    (∀ cms, itf.classes.lookup ms.class_name = some cms →
      _validate_module_interface ms itf =
        (ms.interfaces.filter
          (fun r => !((cms.map sigName).contains r))).map
          (fun r => "Required method '" ++ r ++ "' not implemented in "
            ++ ms.class_name)) ∧
    (_validate_module_interface ms itf = [] ↔
      ∃ cms, itf.classes.lookup ms.class_name = some cms ∧
        ∀ r ∈ ms.interfaces, r ∈ cms.map sigName) := by
  refine ⟨validate_none_eq ms itf, validate_some_eq ms itf, ?_⟩
  cases hl : itf.classes.lookup ms.class_name with
  | none =>
    rw [validate_none_eq ms itf hl]
    constructor
    · intro h
      simp at h
    · rintro ⟨cms, hc, _⟩
      simp at hc
  | some cms =>
    rw [validate_some_eq ms itf cms hl]
    constructor
    · intro h
      refine ⟨cms, rfl, ?_⟩
      intro r hr
      by_contra hrc
      have hmem : r ∈ ms.interfaces.filter
          (fun r => !((cms.map sigName).contains r)) :=
        List.mem_filter.mpr ⟨hr, by simpa [List.contains] using hrc⟩
      rw [List.map_eq_nil_iff] at h
      rw [h] at hmem
      simp at hmem
    · rintro ⟨cms', hc, hall⟩
      have hcc : cms = cms' := by simpa using hc
      subst hcc
      rw [List.map_eq_nil_iff, List.filter_eq_nil_iff]
      intro r hr
      simpa [List.contains] using hall r hr

theorem retryAux_all_fail (ms : ModuleSpec) (gens : Nat → Option PyNode) :
    ∀ (left attempt : Nat),
      (∀ i, attempt ≤ i → i ≤ attempt + left →
        _validate_module_interface ms
          (_extract_module_interface (gens i)) ≠ []) →
      retryAux ms gens attempt left =
        (attemptResult gens (attempt + left), attempt + left + 1) := by
  intro left
  induction left with
  | zero =>
    intro attempt h
    have hne := h attempt le_rfl (by omega)
    unfold retryAux
    rw [if_neg (by simpa [attemptResult, List.isEmpty_iff] using hne)]
    rfl
  | succ l ih =>
    intro attempt h
    have hne := h attempt le_rfl (by omega)
    unfold retryAux
    rw [if_neg (by simpa [attemptResult, List.isEmpty_iff] using hne)]
    have hrec := ih (attempt + 1) (fun i h1 h2 => h i (by omega) (by omega))
    show retryAux ms gens (attempt + 1) l = _
    rw [hrec]
    have harith : attempt + 1 + l = attempt + (l + 1) := by omega
    rw [harith]

/-- C5 (amended): when every attempt of the retry loop fails validation,
`_create_single_module_with_retry` returns the final attempt's artifact
after exactly `max_retries + 1` attempts (3 with the default bound 2) and
does not raise; but the returned artifact's `validation_issues` field is
the empty list — the non-empty issue list is computed and logged, not
attached to the return value — even though re-validating the returned
artifact's interface still yields a non-empty issue list. -/
theorem C5_retry_exhaustion (ms : ModuleSpec) (gens : Nat → Option PyNode)
    (max_retries : Nat)
    (hfail : ∀ i, i ≤ max_retries →
      _validate_module_interface ms
        (_extract_module_interface (gens i)) ≠ []) :
    _create_single_module_with_retry ms gens max_retries =
      (attemptResult gens max_retries, max_retries + 1) ∧
    (_create_single_module_with_retry ms gens
      max_retries).1.validation_issues = [] ∧
    _validate_module_interface ms
      (_create_single_module_with_retry ms gens max_retries).1.interface
      ≠ [] := by
  have h := retryAux_all_fail ms gens max_retries 0
    (fun i h0 hle => hfail i (by omega))
  rw [Nat.zero_add] at h
  refine ⟨h, ?_, ?_⟩
  · rw [show _create_single_module_with_retry ms gens max_retries =
      retryAux ms gens 0 max_retries from rfl, h]
    rfl
  · rw [show _create_single_module_with_retry ms gens max_retries =
      retryAux ms gens 0 max_retries from rfl, h]
    exact hfail max_retries le_rfl

/-- C5 witness: with the default bound (2 retries) and an oracle whose
every attempt fails to parse, the loop makes 3 attempts, returns the third
attempt's artifact with an empty `validation_issues` field, and that
artifact's interface still fails validation. -/
theorem C5_witness :
    _create_single_module_with_retry specFoo gensFail 2 =
      (attemptResult gensFail 2, 2 + 1) ∧
    (_create_single_module_with_retry specFoo gensFail 2).1.validation_issues
      = [] ∧
    _validate_module_interface specFoo
      (_create_single_module_with_retry specFoo gensFail 2).1.interface
      ≠ [] :=
  C5_retry_exhaustion specFoo gensFail 2 (fun i _ =>
    show _validate_module_interface specFoo
      (_extract_module_interface none) ≠ [] by decide)

/-- C5 counterexample: every one of the three attempts fails validation,
yet the artifact returned by `_create_single_module_with_retry` carries an
empty `validation_issues` list (the claim asserts the non-empty issue list
is returned with the artifact), after exactly 3 attempts. -/
theorem C5_counterexample :
    (_validate_module_interface specFoo
        (_extract_module_interface (gensFail 0)) ≠ [] ∧
      _validate_module_interface specFoo
        (_extract_module_interface (gensFail 1)) ≠ [] ∧
      _validate_module_interface specFoo
        (_extract_module_interface (gensFail 2)) ≠ []) ∧
    (_create_single_module_with_retry specFoo gensFail 2).1.validation_issues
      = [] ∧
    (_create_single_module_with_retry specFoo gensFail 2).2 = 3 := by
  decide

/-- C7: evaluation of `_extract_module_interface` on the parse tree of
`class Foo:` with the single public method `def bar(self)` and no
top-level free function: the class mapping is extracted as specified, but
`ast.walk` also visits the nested method node, so the method is ALSO
appended to `functions` — with its full parameter list including `self` —
although the source's own comment labels that branch "Top-level function";
a failed parse yields the empty interface. -/
theorem C7_walk_adds_method_to_functions :
    _extract_module_interface (some treeFoo) =
      { classes := [("Foo", ["bar()"])], functions := ["bar(self)"] } ∧
    _extract_module_interface none = { classes := [], functions := [] } := by
  decide

theorem loop_trace_no_ui :
    ∀ (fuel : Nat) (s : ModuleCreationState),
      ∀ n ∈ (create_modules_loop fuel s).2.2, hasUITerm n = false := by
  intro fuel
  induction fuel with
  | zero =>
    intro s n hn
    simp [create_modules_loop] at hn
  | succ f ih =>
    intro s n hn
    rw [create_modules_loop_succ] at hn
    by_cases hdone : s.is_system_complete = true
    · rw [if_pos hdone] at hn
      simp at hn
    · rw [if_neg hdone] at hn
      cases hnext : s.get_next_module with
      | none =>
        rw [hnext] at hn
        simp at hn
      | some m =>
        rw [hnext] at hn
        by_cases hui : hasUITerm m.name = true
        · simp only [hui, if_pos] at hn
          exact ih (s.mark_module_completed m.name) n hn
        · simp only [hui, if_neg, Bool.false_eq_true, not_false_iff] at hn
          rcases List.mem_cons.mp hn with h | h
          · subst h
            simpa using hui
          · exact ih ((s.mark_module_in_progress m.name).mark_module_completed
              m.name) n h

/-- C9: the cleaning step removes exactly the modules whose name contains
a reserved presentation-layer term (so a module named interface.py is
removed before scheduling and, by the loop's trace property, no generation
call is ever issued for any reserved-term name), and when such a module is
still present when `create_modules` starts, `create_modules` raises the
hard-stop error without running the loop, so before issuing any generation
call. -/
theorem C9_ui_policy (a : SystemArchitecture) :
    ((_validate_and_clean_architecture a).modules =
      a.modules.filter (fun m => !(hasUITerm m.name))) ∧
    (∀ m ∈ (_validate_and_clean_architecture a).modules,
      hasUITerm m.name = false) ∧
    (∀ (s : ModuleCreationState) (fuel : Nat),
      (∃ m ∈ a.modules, hasUITerm m.name = true) →
      create_modules a s fuel = Except.error "UI modules not allowed") ∧
    (∀ (fuel : Nat) (s : ModuleCreationState),
      ∀ n ∈ (create_modules_loop fuel s).2.2, hasUITerm n = false) ∧
    hasUITerm "interface.py" = true := by
  have h1 : (_validate_and_clean_architecture a).modules =
      a.modules.filter (fun m => !(hasUITerm m.name)) := by
    unfold _validate_and_clean_architecture
    by_cases h : (a.modules.filter (fun m => hasUITerm m.name)).isEmpty = true
    · rw [if_pos h]
      rw [List.isEmpty_iff, List.filter_eq_nil_iff] at h
      have : ∀ m ∈ a.modules, (!(hasUITerm m.name)) = true := by
        intro m hm
        simpa using h m hm
      exact (List.filter_eq_self.mpr this).symm
    · rw [if_neg h]
  refine ⟨h1, ?_, ?_, loop_trace_no_ui, by decide⟩
  · intro m hm
    rw [h1] at hm
    have := (List.mem_filter.mp hm).2
    simpa using this
  · rintro s fuel ⟨m, hm, hui⟩
    unfold create_modules
    rw [if_neg ?_]
    rw [List.isEmpty_iff, List.filter_eq_nil_iff]
    intro hnil
    exact (hnil m hm) hui
